import Mathlib

/- Verification development for the go-mysql-server SQL analyzer core:
   plan-tree data model, star resolution (resolveStar / expandStars),
   the rule-engine batch loop, table/column resolution, pushdown and
   natural-join expansion, with the properties stated over them. -/

set_option maxHeartbeats 1000000

namespace Analyzer

/-- SQL column types that appear in the analyzer's schemas. -/
inductive SqlType where
  | int32
  | int64
  | uint32
  | float64
  | text
  | longText
  | timestamp
  | blob
deriving DecidableEq, Repr

/-- Runtime values carried in table rows. -/
inductive Value where
  | null
  | int (i : Int)
  | float (num : Int) (den : Int)
  | text (s : String)
  | bool (b : Bool)
deriving DecidableEq, Repr

/-- True exactly for the boolean true value, used when a filter condition
holds on a row. -/
def Value.isTrue : Value → Bool
  | .bool true => true
  | _ => false

/-- Column descriptor of a schema: name, source table, type, nullability
(sql.Column in the source). -/
structure Column where
  name : String
  source : String
  type : SqlType
  nullable : Bool
deriving DecidableEq, Repr

/-- Schema of a node: an ordered sequence of column descriptors. -/
abbrev Schema := List Column

/-- Expression trees the analyzer inspects and rewrites: unresolved
references, stars, resolved field accesses, aliases, and the opaque
literal/comparison leaves it passes through. -/
inductive Expression where
  | unresolvedColumn (name : String)
  | unresolvedQualifiedColumn (table : String) (name : String)
  | star (table : String)
  | getField (index : Nat) (type : SqlType) (table : String) (name : String) (nullable : Bool)
  | alias (name : String) (child : Expression)
  | literal (v : Value) (type : SqlType)
  | equals (left : Expression) (right : Expression)
  | and (left : Expression) (right : Expression)
deriving DecidableEq, Repr

/-- Resolution predicate on expressions: true iff the expression carries no
unresolved reference (mirrors Resolved() on sql.Expression). -/
def Expression.resolved : Expression → Bool
  | .unresolvedColumn _ => false
  | .unresolvedQualifiedColumn _ _ => false
  | .star _ => false
  | .getField _ _ _ _ _ => true
  | .alias _ e => e.resolved
  | .literal _ _ => true
  | .equals a b => a.resolved && b.resolved
  | .and a b => a.resolved && b.resolved

/-- True iff the expression is a Star at top level (the shape expandStars
replaces). -/
def Expression.isStar : Expression → Bool
  | .star _ => true
  | _ => false

/-- An in-memory table handle: schema, rows, and the pushed-down projection
and filters (memory.PushdownTable in the source); pushdownCapable records
whether the table declares the pushdown capability. -/
structure Table where
  name : String
  schema : Schema
  rows : List (List Value)
  projection : Option (List String)
  filters : List Expression
  pushdownCapable : Bool
deriving DecidableEq, Repr

/-- WithProjection: a copy of the table narrowed to the named columns. -/
def Table.withProjection (t : Table) (names : List String) : Table :=
  { t with projection := some names }

/-- WithFilters: a copy of the table carrying the given filter predicates. -/
def Table.withFilters (t : Table) (fs : List Expression) : Table :=
  { t with filters := fs }

/-- Index of the first column with the given name in a schema. -/
def findColIdx (s : Schema) (nm : String) : Option Nat :=
  s.findIdx? (fun c => c.name = nm)

/-- Output schema of a table handle: the declared schema, narrowed by the
pushed projection when one is set. -/
def Table.outSchema (t : Table) : Schema :=
  match t.projection with
  | none => t.schema
  | some names => names.filterMap (fun nm => (findColIdx t.schema nm).bind (fun i => t.schema.get? i))

/-- Plan-tree nodes of the analyzer core. -/
inductive Node where
  | unresolvedTable (name : String)
  | resolvedTable (table : Table)
  | project (projections : List Expression) (child : Node)
  | groupBy (aggregate : List Expression) (grouping : List Expression) (child : Node)
  | filter (condition : Expression) (child : Node)
  | limit (count : Nat) (child : Node)
  | innerJoin (left : Node) (right : Node) (condition : Expression)
  | crossJoin (left : Node) (right : Node)
  | naturalJoin (left : Node) (right : Node)
  | tableAlias (name : String) (child : Node)
  | describe (child : Node)
  | decorated (description : String) (child : Node)
deriving DecidableEq, Repr

/-- Resolution predicate on nodes: true iff the node and all descendants
carry no unresolved references (a NaturalJoin is never resolved; it must be
rewritten away). -/
def Node.resolved : Node → Bool
  | .unresolvedTable _ => false
  | .resolvedTable _ => true
  | .project es c => es.all Expression.resolved && c.resolved
  | .groupBy a g c => a.all Expression.resolved && g.all Expression.resolved && c.resolved
  | .filter e c => e.resolved && c.resolved
  | .limit _ c => c.resolved
  | .innerJoin l r e => l.resolved && r.resolved && e.resolved
  | .crossJoin l r => l.resolved && r.resolved
  | .naturalJoin _ _ => false
  | .tableAlias _ c => c.resolved
  | .describe c => c.resolved
  | .decorated _ c => c.resolved

/-- Column descriptor a projection expression contributes to its node's
schema (GetField carries its own table/name/type/nullability). -/
def exprToColumn : Expression → Column
  | .getField _ ty tb nm nu => ⟨nm, tb, ty, nu⟩
  | .alias nm e => { exprToColumn e with name := nm, source := "" }
  | .unresolvedColumn nm => ⟨nm, "", .text, true⟩
  | .unresolvedQualifiedColumn tb nm => ⟨nm, tb, .text, true⟩
  | .star tb => ⟨"*", tb, .text, true⟩
  | .literal _ ty => ⟨"", "", ty, true⟩
  | .equals _ _ => ⟨"", "", .int64, true⟩
  | .and _ _ => ⟨"", "", .int64, true⟩

/-- Schema of a node, defined bottom-up from its children. -/
def Node.schema : Node → Schema
  | .unresolvedTable _ => []
  | .resolvedTable t => t.outSchema
  | .project es _ => es.map exprToColumn
  | .groupBy a _ _ => a.map exprToColumn
  | .filter _ c => c.schema
  | .limit _ c => c.schema
  | .innerJoin l r _ => l.schema ++ r.schema
  | .crossJoin l r => l.schema ++ r.schema
  | .naturalJoin l r => l.schema ++ r.schema
  | .tableAlias nm c => c.schema.map (fun col => { col with source := nm })
  | .describe _ => [⟨"plan", "", .text, false⟩]
  | .decorated _ c => c.schema

/-- Analysis errors: the terminal error kinds of the analyzer. -/
inductive AError where
  | tableNotFound (name : String)
  | columnNotFound (name : String)
  | ambiguousColumn (name : String)
  | databaseNotFound (name : String)
deriving DecidableEq, Repr

/-- Generic list enumeration with a starting index, mirroring Go's
indexed range loop over a schema. -/
def enumerate {α : Type} : Nat → List α → List (Nat × α)
  | _, [] => []
  | i, a :: as => (i, a) :: enumerate (i + 1) as

/-- GetField built for column col at schema position i, as
expression.NewGetFieldWithTable(i, col.Type, col.Source, col.Name,
col.Nullable) does. -/
def starField (i : Nat) (col : Column) : Expression :=
  .getField i col.type col.source col.name col.nullable

/-- Inner loop of expandStars: walks the schema from index i collecting a
GetField for every column whose source matches the star's qualifier (every
column when the qualifier is empty). -/
def starFieldsFrom (q : String) : Nat → Schema → List Expression
  | _, [] => []
  | i, col :: rest =>
    if q = "" ∨ q = col.source then
      starField i col :: starFieldsFrom q (i + 1) rest
    else
      starFieldsFrom q (i + 1) rest

/-- GetFields a star with qualifier q expands to against a schema. -/
def starFields (q : String) (schema : Schema) : List Expression :=
  starFieldsFrom q 0 schema

/-- expandStars from the source: replaces each top-level Star in the
expression list with the matching GetFields of the schema, fails with
TableNotFound when a qualified star matches no column, and passes every
other expression through unchanged. -/
def expandStars : List Expression → Schema → Except AError (List Expression)
  | [], _ => .ok []
  | .star q :: rest, schema =>
    let fields := starFields q schema
    if fields = [] ∧ q ≠ "" then
      .error (.tableNotFound q)
    else
      (expandStars rest schema).map (fun tail => fields ++ tail)
  | e :: rest, schema => (expandStars rest schema).map (fun tail => e :: tail)

theorem except_map_ok {α β ε : Type} (f : α → β) (a : α) :
    (Except.ok a : Except ε α).map f = .ok (f a) := rfl

theorem except_map_error {α β ε : Type} (f : α → β) (e : ε) :
    (Except.error e : Except ε α).map f = .error e := rfl

theorem starFieldsFrom_unqualified (s : Schema) (i : Nat) :
    starFieldsFrom "" i s = (enumerate i s).map (fun p => starField p.1 p.2) := by
  induction s generalizing i with
  | nil => simp [starFieldsFrom, enumerate]
  | cons col rest ih => simp [starFieldsFrom, enumerate, ih]

theorem starFieldsFrom_qualified (q : String) (hq : q ≠ "") (s : Schema) (i : Nat) :
    starFieldsFrom q i s =
      (enumerate i s).filterMap
        (fun p => if p.2.source = q then some (starField p.1 p.2) else none) := by
  induction s generalizing i with
  | nil => simp [starFieldsFrom, enumerate]
  | cons col rest ih =>
    by_cases h : q = col.source
    · have h2 : col.source = q := h.symm
      simp [starFieldsFrom, enumerate, hq, h2, ih]
    · have h' : ¬ col.source = q := fun hc => h hc.symm
      simp [starFieldsFrom, enumerate, hq, h, h', ih]

theorem starFieldsFrom_nonempty (q : String) (s : Schema) (col : Column)
    (hmem : col ∈ s) (hsrc : col.source = q) :
    ∀ i, starFieldsFrom q i s ≠ [] := by
  induction s with
  | nil => cases hmem
  | cons c rest ih =>
    intro i
    rcases List.mem_cons.mp hmem with h | h
    · subst h
      simp [starFieldsFrom, hsrc]
    · by_cases hc : q = "" ∨ q = c.source
      · simp [starFieldsFrom, hc]
      · simpa [starFieldsFrom, hc] using ih h (i + 1)

theorem starFieldsFrom_empty_of_no_match (q : String) (hq : q ≠ "") (s : Schema)
    (h : ∀ col ∈ s, col.source ≠ q) :
    ∀ i, starFieldsFrom q i s = [] := by
  induction s with
  | nil => intro i; simp [starFieldsFrom]
  | cons c rest ih =>
    intro i
    have hc : c.source ≠ q := h c (List.mem_cons_self c rest)
    have hcq : ¬ q = c.source := fun he => hc he.symm
    have : starFieldsFrom q (i + 1) rest = [] :=
      ih (fun col hm => h col (List.mem_cons_of_mem c hm)) (i + 1)
    simp [starFieldsFrom, hq, hcq, this]

theorem enumerate_length {α : Type} (l : List α) : ∀ i, (enumerate i l).length = l.length := by
  induction l with
  | nil => intro i; simp [enumerate]
  | cons a as ih => intro i; simp [enumerate, ih]

/-- C1: for a Project (or GroupBy) with a resolved child, star expansion
replaces each Star with an ordered sequence of GetFields, one per column of
the child's schema whose source matches the qualifier (all columns, in
schema order, when unqualified); an unqualified star over a schema yields
exactly schema.length GetFields in schema order, and a qualified star
yields only the qualifier's columns. -/
theorem star_expansion_completeness (sch : Schema) :
    (expandStars [.star ""] sch
        = .ok ((enumerate 0 sch).map (fun p => starField p.1 p.2)))
    ∧ (∀ l, expandStars [.star ""] sch = .ok l → l.length = sch.length)
    ∧ (∀ q, q ≠ "" → (∃ col ∈ sch, col.source = q) →
        expandStars [.star q] sch
          = .ok ((enumerate 0 sch).filterMap
              (fun p => if p.2.source = q then some (starField p.1 p.2) else none))) := by
  have hunq : expandStars [.star ""] sch
      = .ok ((enumerate 0 sch).map (fun p => starField p.1 p.2)) := by
    simp only [expandStars, starFields, ne_eq, not_true_eq_false, and_false, if_false,
      except_map_ok, List.append_nil]
    rw [starFieldsFrom_unqualified]
  refine ⟨hunq, ?_, ?_⟩
  · intro l hl
    rw [hunq] at hl
    cases hl
    simp [enumerate_length]
  · intro q hq ⟨col, hmem, hsrc⟩
    have hne : starFields q sch ≠ [] := starFieldsFrom_nonempty q sch col hmem hsrc 0
    simp only [expandStars]
    rw [if_neg (fun h => hne h.1)]
    simp only [except_map_ok, List.append_nil]
    rw [starFields, starFieldsFrom_qualified q hq]

/-- Witness for C1 on a concrete two-table schema: the qualified star
expands to exactly the columns of table a, in order, with absolute indices. -/
theorem star_expansion_completeness_witness :
    expandStars [.star "a"]
        [⟨"x", "a", .int32, false⟩, ⟨"y", "b", .text, false⟩, ⟨"z", "a", .text, true⟩]
      = .ok [.getField 0 .int32 "a" "x" false, .getField 2 .text "a" "z" true] :=
  (star_expansion_completeness
      [⟨"x", "a", .int32, false⟩, ⟨"y", "b", .text, false⟩, ⟨"z", "a", .text, true⟩]).2.2
    "a" (by decide) ⟨⟨"x", "a", .int32, false⟩, by decide, rfl⟩

/-- C8: a star qualified by a table name matching zero columns of the
schema makes expandStars fail with TableNotFound naming that table. -/
theorem qualified_star_table_not_found (sch : Schema) (q : String) (rest : List Expression)
    (hq : q ≠ "") (h : ∀ col ∈ sch, col.source ≠ q) :
    expandStars (.star q :: rest) sch = .error (.tableNotFound q) := by
  have hempty : starFields q sch = [] := starFieldsFrom_empty_of_no_match q hq sch h 0
  simp [expandStars, hempty, hq]

/-- Witness for C8: a star qualified by an absent table over a concrete
one-table schema errors with TableNotFound for that name. -/
theorem qualified_star_table_not_found_witness :
    expandStars [.star "absent"] [⟨"i", "mytable", .int32, false⟩]
      = .error (.tableNotFound "absent") :=
  qualified_star_table_not_found [⟨"i", "mytable", .int32, false⟩] "absent" []
    (by decide) (by decide)

theorem except_bind_ok {α β ε : Type} (a : α) (f : α → Except ε β) :
    (Except.ok a).bind f = f a := rfl

theorem except_bind_error {α β ε : Type} (e : ε) (f : α → Except ε β) :
    (Except.error e : Except ε α).bind f = .error e := rfl

/-- Generic bottom-up tree transformation (plan.TransformUp): children are
rewritten first, then the callback is applied to the node rebuilt from the
rewritten children; an error from the callback aborts the traversal. -/
def transformUp (f : Node → Except AError Node) : Node → Except AError Node
  | .unresolvedTable nm => f (.unresolvedTable nm)
  | .resolvedTable t => f (.resolvedTable t)
  | .project es c => (transformUp f c).bind (fun c2 => f (.project es c2))
  | .groupBy a g c => (transformUp f c).bind (fun c2 => f (.groupBy a g c2))
  | .filter e c => (transformUp f c).bind (fun c2 => f (.filter e c2))
  | .limit k c => (transformUp f c).bind (fun c2 => f (.limit k c2))
  | .innerJoin l r e =>
    (transformUp f l).bind (fun l2 =>
      (transformUp f r).bind (fun r2 => f (.innerJoin l2 r2 e)))
  | .crossJoin l r =>
    (transformUp f l).bind (fun l2 =>
      (transformUp f r).bind (fun r2 => f (.crossJoin l2 r2)))
  | .naturalJoin l r =>
    (transformUp f l).bind (fun l2 =>
      (transformUp f r).bind (fun r2 => f (.naturalJoin l2 r2)))
  | .tableAlias nm c => (transformUp f c).bind (fun c2 => f (.tableAlias nm c2))
  | .describe c => (transformUp f c).bind (fun c2 => f (.describe c2))
  | .decorated d c => (transformUp f c).bind (fun c2 => f (.decorated d c2))

/-- Per-node body of the resolve_star rule, from the source: an already
resolved node is returned unchanged; a Project or GroupBy whose child is
resolved has its projection (resp. aggregate) list star-expanded against
the child's schema; every other node is returned unchanged. -/
def resolveStarFn (n : Node) : Except AError Node :=
  if n.resolved then .ok n
  else
    match n with
    | .project es c =>
      if c.resolved then (expandStars es c.schema).map (fun es2 => .project es2 c)
      else .ok (.project es c)
    | .groupBy a g c =>
      if c.resolved then (expandStars a c.schema).map (fun a2 => .groupBy a2 g c)
      else .ok (.groupBy a g c)
    | m => .ok m

/-- resolveStar rule from the source: the per-node body applied bottom-up
over the whole tree. -/
def resolveStar : Node → Except AError Node := transformUp resolveStarFn

/-- True iff the node is a Project or a GroupBy, the only shapes the
resolve_star rule rewrites. -/
def isProjectOrGroupBy : Node → Bool
  | .project _ _ => true
  | .groupBy _ _ _ => true
  | _ => false

/-- True iff the tree contains a Project or GroupBy node anywhere. -/
def hasProjectOrGroupBy : Node → Bool
  | .unresolvedTable _ => false
  | .resolvedTable _ => false
  | .project _ _ => true
  | .groupBy _ _ _ => true
  | .filter _ c => hasProjectOrGroupBy c
  | .limit _ c => hasProjectOrGroupBy c
  | .innerJoin l r _ => hasProjectOrGroupBy l || hasProjectOrGroupBy r
  | .crossJoin l r => hasProjectOrGroupBy l || hasProjectOrGroupBy r
  | .naturalJoin l r => hasProjectOrGroupBy l || hasProjectOrGroupBy r
  | .tableAlias _ c => hasProjectOrGroupBy c
  | .describe c => hasProjectOrGroupBy c
  | .decorated _ c => hasProjectOrGroupBy c

theorem resolveStarFn_of_not_pg (n : Node) (h : isProjectOrGroupBy n = false) :
    resolveStarFn n = .ok n := by
  cases n <;> simp [isProjectOrGroupBy] at h ⊢ <;> simp [resolveStarFn]

/-- C7: a single application of the star-resolution rule body to a Project
or GroupBy whose immediate child is not yet resolved returns the node
unchanged. -/
theorem star_rule_unresolved_child_unchanged (es a g : List Expression) (c : Node)
    (h : c.resolved = false) :
    resolveStarFn (.project es c) = .ok (.project es c)
    ∧ resolveStarFn (.groupBy a g c) = .ok (.groupBy a g c) := by
  constructor <;> simp [resolveStarFn, Node.resolved, h]

/-- Witness for C7: a Project over a still-unresolved table is returned
unchanged by the star-resolution rule body. -/
theorem star_rule_unresolved_child_unchanged_witness :
    resolveStarFn (.project [.star ""] (.unresolvedTable "mytable"))
      = .ok (.project [.star ""] (.unresolvedTable "mytable")) :=
  (star_rule_unresolved_child_unchanged [.star ""] [] [] (.unresolvedTable "mytable") rfl).1

/-- C10: the star-resolution rule rewrites only Project and GroupBy nodes:
its body returns every other node unchanged, and a full bottom-up pass over
a tree containing no Project or GroupBy returns the tree unchanged. -/
theorem star_rule_targets_only_project_groupby (n : Node) :
    (isProjectOrGroupBy n = false → resolveStarFn n = .ok n)
    ∧ (hasProjectOrGroupBy n = false → resolveStar n = .ok n) := by
  refine ⟨resolveStarFn_of_not_pg n, ?_⟩
  induction n with
  | unresolvedTable nm => intro h; simp [resolveStar, transformUp, resolveStarFn]
  | resolvedTable t => intro h; simp [resolveStar, transformUp, resolveStarFn]
  | project es c ih => intro h; simp [hasProjectOrGroupBy] at h
  | groupBy a g c ih => intro h; simp [hasProjectOrGroupBy] at h
  | filter e c ih =>
    intro h
    simp [hasProjectOrGroupBy] at h
    have hc := ih h
    simp [resolveStar] at hc
    simp [resolveStar, transformUp, hc, except_bind_ok,
      resolveStarFn_of_not_pg (.filter e c) rfl]
  | limit k c ih =>
    intro h
    simp [hasProjectOrGroupBy] at h
    have hc := ih h
    simp [resolveStar] at hc
    simp [resolveStar, transformUp, hc, except_bind_ok,
      resolveStarFn_of_not_pg (.limit k c) rfl]
  | innerJoin l r e ihl ihr =>
    intro h
    simp [hasProjectOrGroupBy] at h
    have hl := ihl h.1
    have hr := ihr h.2
    simp [resolveStar] at hl hr
    simp [resolveStar, transformUp, hl, hr, except_bind_ok,
      resolveStarFn_of_not_pg (.innerJoin l r e) rfl]
  | crossJoin l r ihl ihr =>
    intro h
    simp [hasProjectOrGroupBy] at h
    have hl := ihl h.1
    have hr := ihr h.2
    simp [resolveStar] at hl hr
    simp [resolveStar, transformUp, hl, hr, except_bind_ok,
      resolveStarFn_of_not_pg (.crossJoin l r) rfl]
  | naturalJoin l r ihl ihr =>
    intro h
    simp [hasProjectOrGroupBy] at h
    have hl := ihl h.1
    have hr := ihr h.2
    simp [resolveStar] at hl hr
    simp [resolveStar, transformUp, hl, hr, except_bind_ok,
      resolveStarFn_of_not_pg (.naturalJoin l r) rfl]
  | tableAlias nm c ih =>
    intro h
    simp [hasProjectOrGroupBy] at h
    have hc := ih h
    simp [resolveStar] at hc
    simp [resolveStar, transformUp, hc, except_bind_ok,
      resolveStarFn_of_not_pg (.tableAlias nm c) rfl]
  | describe c ih =>
    intro h
    simp [hasProjectOrGroupBy] at h
    have hc := ih h
    simp [resolveStar] at hc
    simp [resolveStar, transformUp, hc, except_bind_ok,
      resolveStarFn_of_not_pg (.describe c) rfl]
  | decorated d c ih =>
    intro h
    simp [hasProjectOrGroupBy] at h
    have hc := ih h
    simp [resolveStar] at hc
    simp [resolveStar, transformUp, hc, except_bind_ok,
      resolveStarFn_of_not_pg (.decorated d c) rfl]

/-- Witness for C10: a pass of resolveStar over a Filter tree whose
condition contains a star returns the tree unchanged. -/
theorem star_rule_targets_only_project_groupby_witness :
    resolveStar (.filter (.equals (.star "") (.literal (.int 1) .int32)) (.unresolvedTable "t"))
      = .ok (.filter (.equals (.star "") (.literal (.int 1) .int32)) (.unresolvedTable "t")) :=
  (star_rule_targets_only_project_groupby
    (.filter (.equals (.star "") (.literal (.int 1) .int32)) (.unresolvedTable "t"))).2 rfl

/-- True iff no expression of the list is a top-level Star. -/
def starFree (es : List Expression) : Bool := es.all (fun e => !e.isStar)

theorem starFieldsFrom_starFree (q : String) (s : Schema) :
    ∀ i, starFree (starFieldsFrom q i s) = true := by
  induction s with
  | nil => intro i; simp [starFieldsFrom, starFree]
  | cons col rest ih =>
    intro i
    by_cases h : q = "" ∨ q = col.source
    · have := ih (i + 1)
      simp [starFieldsFrom, h, starFree, starField, Expression.isStar] at this ⊢
      exact this
    · simpa [starFieldsFrom, h] using ih (i + 1)

theorem expandStars_starFree (es : List Expression) (s : Schema) :
    ∀ es2, expandStars es s = .ok es2 → starFree es2 = true := by
  induction es with
  | nil =>
    intro es2 h
    simp [expandStars] at h
    subst h
    simp [starFree]
  | cons e rest ih =>
    intro es2 h
    cases e with
    | star q =>
      simp only [expandStars] at h
      by_cases hc : starFields q s = [] ∧ q ≠ ""
      · rw [if_pos hc] at h; cases h
      · rw [if_neg hc] at h
        cases hrest : expandStars rest s with
        | error er => rw [hrest] at h; cases h
        | ok tail =>
          rw [hrest, except_map_ok] at h
          cases h
          have h1 := starFieldsFrom_starFree q s 0
          have h2 := ih tail hrest
          simp [starFree, starFields] at h1 h2 ⊢
          exact ⟨h1, h2⟩
    | unresolvedColumn nm =>
      simp only [expandStars] at h
      cases hrest : expandStars rest s with
      | error er => rw [hrest] at h; cases h
      | ok tail =>
        rw [hrest, except_map_ok] at h
        cases h
        have h2 := ih tail hrest
        simp [starFree, Expression.isStar] at h2 ⊢
        exact h2
    | unresolvedQualifiedColumn tb nm =>
      simp only [expandStars] at h
      cases hrest : expandStars rest s with
      | error er => rw [hrest] at h; cases h
      | ok tail =>
        rw [hrest, except_map_ok] at h
        cases h
        have h2 := ih tail hrest
        simp [starFree, Expression.isStar] at h2 ⊢
        exact h2
    | getField i ty tb nm nu =>
      simp only [expandStars] at h
      cases hrest : expandStars rest s with
      | error er => rw [hrest] at h; cases h
      | ok tail =>
        rw [hrest, except_map_ok] at h
        cases h
        have h2 := ih tail hrest
        simp [starFree, Expression.isStar] at h2 ⊢
        exact h2
    | «alias» nm inner =>
      simp only [expandStars] at h
      cases hrest : expandStars rest s with
      | error er => rw [hrest] at h; cases h
      | ok tail =>
        rw [hrest, except_map_ok] at h
        cases h
        have h2 := ih tail hrest
        simp [starFree, Expression.isStar] at h2 ⊢
        exact h2
    | literal v ty =>
      simp only [expandStars] at h
      cases hrest : expandStars rest s with
      | error er => rw [hrest] at h; cases h
      | ok tail =>
        rw [hrest, except_map_ok] at h
        cases h
        have h2 := ih tail hrest
        simp [starFree, Expression.isStar] at h2 ⊢
        exact h2
    | equals a b =>
      simp only [expandStars] at h
      cases hrest : expandStars rest s with
      | error er => rw [hrest] at h; cases h
      | ok tail =>
        rw [hrest, except_map_ok] at h
        cases h
        have h2 := ih tail hrest
        simp [starFree, Expression.isStar] at h2 ⊢
        exact h2
    | and a b =>
      simp only [expandStars] at h
      cases hrest : expandStars rest s with
      | error er => rw [hrest] at h; cases h
      | ok tail =>
        rw [hrest, except_map_ok] at h
        cases h
        have h2 := ih tail hrest
        simp [starFree, Expression.isStar] at h2 ⊢
        exact h2

theorem expandStars_of_starFree (es : List Expression) (s : Schema)
    (h : starFree es = true) : expandStars es s = .ok es := by
  induction es with
  | nil => simp [expandStars]
  | cons e rest ih =>
    simp only [starFree, List.all_cons, Bool.and_eq_true] at h
    have htail : expandStars rest s = .ok rest := by
      apply ih
      simp [starFree]
      exact fun x hx => by
        have := h.2
        simp at this
        exact this x hx
    cases e with
    | star q => simp [Expression.isStar] at h
    | unresolvedColumn nm => simp [expandStars, htail, except_map_ok]
    | unresolvedQualifiedColumn tb nm => simp [expandStars, htail, except_map_ok]
    | getField i ty tb nm nu => simp [expandStars, htail, except_map_ok]
    | «alias» nm inner => simp [expandStars, htail, except_map_ok]
    | literal v ty => simp [expandStars, htail, except_map_ok]
    | equals a b => simp [expandStars, htail, except_map_ok]
    | and a b => simp [expandStars, htail, except_map_ok]

theorem resolveStar_of_resolved (n : Node) (h : n.resolved = true) :
    resolveStar n = .ok n := by
  induction n with
  | unresolvedTable nm => simp [Node.resolved] at h
  | resolvedTable t => simp [resolveStar, transformUp, resolveStarFn]
  | project es c ih =>
    simp only [Node.resolved, Bool.and_eq_true] at h
    have hc := ih h.2
    simp [resolveStar] at hc
    simp only [resolveStar, transformUp, hc, except_bind_ok]
    have : Node.resolved (.project es c) = true := by
      simp [Node.resolved, h.1, h.2]
    simp [resolveStarFn, this]
  | groupBy a g c ih =>
    simp only [Node.resolved, Bool.and_eq_true] at h
    have hc := ih h.2
    simp [resolveStar] at hc
    simp only [resolveStar, transformUp, hc, except_bind_ok]
    have : Node.resolved (.groupBy a g c) = true := by
      simp [Node.resolved, h.1, h.2]
    simp [resolveStarFn, this]
  | filter e c ih =>
    simp only [Node.resolved, Bool.and_eq_true] at h
    have hc := ih h.2
    simp [resolveStar] at hc
    simp only [resolveStar, transformUp, hc, except_bind_ok]
    have : Node.resolved (.filter e c) = true := by
      simp [Node.resolved, h.1, h.2]
    simp [resolveStarFn, this]
  | limit k c ih =>
    have hh : Node.resolved c = true := h
    have hc := ih hh
    simp [resolveStar] at hc
    simp only [resolveStar, transformUp, hc, except_bind_ok]
    simp [resolveStarFn, Node.resolved, hh]
  | innerJoin l r e ihl ihr =>
    simp only [Node.resolved, Bool.and_eq_true] at h
    have hl := ihl h.1.1
    have hr := ihr h.1.2
    simp [resolveStar] at hl hr
    simp only [resolveStar, transformUp, hl, hr, except_bind_ok]
    have : Node.resolved (.innerJoin l r e) = true := by
      simp [Node.resolved, h.1.1, h.1.2, h.2]
    simp [resolveStarFn, this]
  | crossJoin l r ihl ihr =>
    simp only [Node.resolved, Bool.and_eq_true] at h
    have hl := ihl h.1
    have hr := ihr h.2
    simp [resolveStar] at hl hr
    simp only [resolveStar, transformUp, hl, hr, except_bind_ok]
    have : Node.resolved (.crossJoin l r) = true := by
      simp [Node.resolved, h.1, h.2]
    simp [resolveStarFn, this]
  | naturalJoin l r ihl ihr => simp [Node.resolved] at h
  | tableAlias nm c ih =>
    have hh : Node.resolved c = true := h
    have hc := ih hh
    simp [resolveStar] at hc
    simp only [resolveStar, transformUp, hc, except_bind_ok]
    simp [resolveStarFn, Node.resolved, hh]
  | describe c ih =>
    have hh : Node.resolved c = true := h
    have hc := ih hh
    simp [resolveStar] at hc
    simp only [resolveStar, transformUp, hc, except_bind_ok]
    simp [resolveStarFn, Node.resolved, hh]
  | decorated d c ih =>
    have hh : Node.resolved c = true := h
    have hc := ih hh
    simp [resolveStar] at hc
    simp only [resolveStar, transformUp, hc, except_bind_ok]
    simp [resolveStarFn, Node.resolved, hh]

theorem resolveStarFn_project (es : List Expression) (c : Node) :
    resolveStarFn (.project es c) =
      if Node.resolved (.project es c) then .ok (.project es c)
      else if c.resolved then (expandStars es c.schema).map (fun es2 => .project es2 c)
      else .ok (.project es c) := rfl

theorem resolveStarFn_groupBy (a g : List Expression) (c : Node) :
    resolveStarFn (.groupBy a g c) =
      if Node.resolved (.groupBy a g c) then .ok (.groupBy a g c)
      else if c.resolved then (expandStars a c.schema).map (fun a2 => .groupBy a2 g c)
      else .ok (.groupBy a g c) := rfl

theorem resolveStar_idem (n : Node) : ∀ m, resolveStar n = .ok m → resolveStar m = .ok m := by
  induction n with
  | unresolvedTable nm =>
    intro m h
    simp only [resolveStar, transformUp] at h
    rw [resolveStarFn_of_not_pg (.unresolvedTable nm) rfl] at h
    cases h
    simp only [resolveStar, transformUp]
    exact resolveStarFn_of_not_pg _ rfl
  | resolvedTable t =>
    intro m h
    simp only [resolveStar, transformUp] at h
    simp only [resolveStarFn, Node.resolved, if_pos] at h
    cases h
    simp only [resolveStar, transformUp]
    simp [resolveStarFn, Node.resolved]
  | project es c ih =>
    intro m h
    simp only [resolveStar, transformUp] at h
    cases hc : transformUp resolveStarFn c with
    | error er => rw [hc] at h; simp [except_bind_error] at h
    | ok c2 =>
      rw [hc, except_bind_ok] at h
      have hcc : transformUp resolveStarFn c2 = .ok c2 := by
        simpa [resolveStar] using ih c2 (by simpa [resolveStar] using hc)
      rw [resolveStarFn_project] at h
      by_cases hres : Node.resolved (.project es c2) = true
      · rw [if_pos hres] at h
        cases h
        exact resolveStar_of_resolved _ hres
      · rw [if_neg hres] at h
        by_cases hc2 : Node.resolved c2 = true
        · rw [if_pos hc2] at h
          cases hex : expandStars es c2.schema with
          | error er => rw [hex, except_map_error] at h; cases h
          | ok es2 =>
            rw [hex, except_map_ok] at h
            cases h
            simp only [resolveStar, transformUp]
            rw [hcc, except_bind_ok, resolveStarFn_project]
            by_cases hres2 : Node.resolved (.project es2 c2) = true
            · rw [if_pos hres2]
            · rw [if_neg hres2, if_pos hc2]
              have hfree := expandStars_starFree es c2.schema es2 hex
              rw [expandStars_of_starFree es2 c2.schema hfree, except_map_ok]
        · rw [if_neg hc2] at h
          cases h
          simp only [resolveStar, transformUp]
          rw [hcc, except_bind_ok, resolveStarFn_project]
          rw [if_neg hres, if_neg hc2]
  | groupBy a g c ih =>
    intro m h
    simp only [resolveStar, transformUp] at h
    cases hc : transformUp resolveStarFn c with
    | error er => rw [hc] at h; simp [except_bind_error] at h
    | ok c2 =>
      rw [hc, except_bind_ok] at h
      have hcc : transformUp resolveStarFn c2 = .ok c2 := by
        simpa [resolveStar] using ih c2 (by simpa [resolveStar] using hc)
      rw [resolveStarFn_groupBy] at h
      by_cases hres : Node.resolved (.groupBy a g c2) = true
      · rw [if_pos hres] at h
        cases h
        exact resolveStar_of_resolved _ hres
      · rw [if_neg hres] at h
        by_cases hc2 : Node.resolved c2 = true
        · rw [if_pos hc2] at h
          cases hex : expandStars a c2.schema with
          | error er => rw [hex, except_map_error] at h; cases h
          | ok a2 =>
            rw [hex, except_map_ok] at h
            cases h
            simp only [resolveStar, transformUp]
            rw [hcc, except_bind_ok, resolveStarFn_groupBy]
            by_cases hres2 : Node.resolved (.groupBy a2 g c2) = true
            · rw [if_pos hres2]
            · rw [if_neg hres2, if_pos hc2]
              have hfree := expandStars_starFree a c2.schema a2 hex
              rw [expandStars_of_starFree a2 c2.schema hfree, except_map_ok]
        · rw [if_neg hc2] at h
          cases h
          simp only [resolveStar, transformUp]
          rw [hcc, except_bind_ok, resolveStarFn_groupBy]
          rw [if_neg hres, if_neg hc2]
  | filter e c ih =>
    intro m h
    simp only [resolveStar, transformUp] at h
    cases hc : transformUp resolveStarFn c with
    | error er => rw [hc] at h; simp [except_bind_error] at h
    | ok c2 =>
      rw [hc, except_bind_ok, resolveStarFn_of_not_pg (.filter e c2) rfl] at h
      cases h
      have hcc : transformUp resolveStarFn c2 = .ok c2 := by
        simpa [resolveStar] using ih c2 (by simpa [resolveStar] using hc)
      simp only [resolveStar, transformUp]
      rw [hcc, except_bind_ok]
      exact resolveStarFn_of_not_pg _ rfl
  | limit k c ih =>
    intro m h
    simp only [resolveStar, transformUp] at h
    cases hc : transformUp resolveStarFn c with
    | error er => rw [hc] at h; simp [except_bind_error] at h
    | ok c2 =>
      rw [hc, except_bind_ok, resolveStarFn_of_not_pg (.limit k c2) rfl] at h
      cases h
      have hcc : transformUp resolveStarFn c2 = .ok c2 := by
        simpa [resolveStar] using ih c2 (by simpa [resolveStar] using hc)
      simp only [resolveStar, transformUp]
      rw [hcc, except_bind_ok]
      exact resolveStarFn_of_not_pg _ rfl
  | innerJoin l r e ihl ihr =>
    intro m h
    simp only [resolveStar, transformUp] at h
    cases hl : transformUp resolveStarFn l with
    | error er => rw [hl] at h; simp [except_bind_error] at h
    | ok l2 =>
      rw [hl, except_bind_ok] at h
      cases hr : transformUp resolveStarFn r with
      | error er => rw [hr] at h; simp [except_bind_error] at h
      | ok r2 =>
        rw [hr, except_bind_ok, resolveStarFn_of_not_pg (.innerJoin l2 r2 e) rfl] at h
        cases h
        have hll : transformUp resolveStarFn l2 = .ok l2 := by
          simpa [resolveStar] using ihl l2 (by simpa [resolveStar] using hl)
        have hrr : transformUp resolveStarFn r2 = .ok r2 := by
          simpa [resolveStar] using ihr r2 (by simpa [resolveStar] using hr)
        simp only [resolveStar, transformUp]
        rw [hll, except_bind_ok, hrr, except_bind_ok]
        exact resolveStarFn_of_not_pg _ rfl
  | crossJoin l r ihl ihr =>
    intro m h
    simp only [resolveStar, transformUp] at h
    cases hl : transformUp resolveStarFn l with
    | error er => rw [hl] at h; simp [except_bind_error] at h
    | ok l2 =>
      rw [hl, except_bind_ok] at h
      cases hr : transformUp resolveStarFn r with
      | error er => rw [hr] at h; simp [except_bind_error] at h
      | ok r2 =>
        rw [hr, except_bind_ok, resolveStarFn_of_not_pg (.crossJoin l2 r2) rfl] at h
        cases h
        have hll : transformUp resolveStarFn l2 = .ok l2 := by
          simpa [resolveStar] using ihl l2 (by simpa [resolveStar] using hl)
        have hrr : transformUp resolveStarFn r2 = .ok r2 := by
          simpa [resolveStar] using ihr r2 (by simpa [resolveStar] using hr)
        simp only [resolveStar, transformUp]
        rw [hll, except_bind_ok, hrr, except_bind_ok]
        exact resolveStarFn_of_not_pg _ rfl
  | naturalJoin l r ihl ihr =>
    intro m h
    simp only [resolveStar, transformUp] at h
    cases hl : transformUp resolveStarFn l with
    | error er => rw [hl] at h; simp [except_bind_error] at h
    | ok l2 =>
      rw [hl, except_bind_ok] at h
      cases hr : transformUp resolveStarFn r with
      | error er => rw [hr] at h; simp [except_bind_error] at h
      | ok r2 =>
        rw [hr, except_bind_ok, resolveStarFn_of_not_pg (.naturalJoin l2 r2) rfl] at h
        cases h
        have hll : transformUp resolveStarFn l2 = .ok l2 := by
          simpa [resolveStar] using ihl l2 (by simpa [resolveStar] using hl)
        have hrr : transformUp resolveStarFn r2 = .ok r2 := by
          simpa [resolveStar] using ihr r2 (by simpa [resolveStar] using hr)
        simp only [resolveStar, transformUp]
        rw [hll, except_bind_ok, hrr, except_bind_ok]
        exact resolveStarFn_of_not_pg _ rfl
  | tableAlias nm c ih =>
    intro m h
    simp only [resolveStar, transformUp] at h
    cases hc : transformUp resolveStarFn c with
    | error er => rw [hc] at h; simp [except_bind_error] at h
    | ok c2 =>
      rw [hc, except_bind_ok, resolveStarFn_of_not_pg (.tableAlias nm c2) rfl] at h
      cases h
      have hcc : transformUp resolveStarFn c2 = .ok c2 := by
        simpa [resolveStar] using ih c2 (by simpa [resolveStar] using hc)
      simp only [resolveStar, transformUp]
      rw [hcc, except_bind_ok]
      exact resolveStarFn_of_not_pg _ rfl
  | describe c ih =>
    intro m h
    simp only [resolveStar, transformUp] at h
    cases hc : transformUp resolveStarFn c with
    | error er => rw [hc] at h; simp [except_bind_error] at h
    | ok c2 =>
      rw [hc, except_bind_ok, resolveStarFn_of_not_pg (.describe c2) rfl] at h
      cases h
      have hcc : transformUp resolveStarFn c2 = .ok c2 := by
        simpa [resolveStar] using ih c2 (by simpa [resolveStar] using hc)
      simp only [resolveStar, transformUp]
      rw [hcc, except_bind_ok]
      exact resolveStarFn_of_not_pg _ rfl
  | decorated d c ih =>
    intro m h
    simp only [resolveStar, transformUp] at h
    cases hc : transformUp resolveStarFn c with
    | error er => rw [hc] at h; simp [except_bind_error] at h
    | ok c2 =>
      rw [hc, except_bind_ok, resolveStarFn_of_not_pg (.decorated d c2) rfl] at h
      cases h
      have hcc : transformUp resolveStarFn c2 = .ok c2 := by
        simpa [resolveStar] using ih c2 (by simpa [resolveStar] using hc)
      simp only [resolveStar, transformUp]
      rw [hcc, except_bind_ok]
      exact resolveStarFn_of_not_pg _ rfl

/-- C6: the star-resolution rule is a no-op on trees it cannot improve: a
pass over a fully resolved tree returns a structurally identical tree, and
repeated application of the rule is idempotent. -/
theorem star_rule_idempotent (n m : Node) :
    (n.resolved = true → resolveStar n = .ok n)
    ∧ (resolveStar n = .ok m → resolveStar m = .ok m) :=
  ⟨resolveStar_of_resolved n, resolveStar_idem n m⟩

/-- Demo pushdown-capable table mirroring mytable from the analyzer tests. -/
def demoTable : Table :=
  ⟨"mytable", [⟨"i", "mytable", .int32, false⟩, ⟨"t", "mytable", .text, false⟩],
    [[.int 1, .text "a"], [.int 2, .text "b"]], none, [], true⟩

/-- Witness for C6: a pass of resolveStar over an already resolved table
node returns it unchanged. -/
theorem star_rule_idempotent_witness :
    resolveStar (.resolvedTable demoTable) = .ok (.resolvedTable demoTable) :=
  (star_rule_idempotent (.resolvedTable demoTable) (.resolvedTable demoTable)).1 rfl

theorem except_map_map {α β γ ε : Type} (f : α → β) (g : β → γ) (x : Except ε α) :
    (x.map f).map g = x.map (fun a => g (f a)) := by
  cases x <;> rfl

theorem except_bind_pure {α ε : Type} (x : Except ε α) : x.bind Except.ok = x := by
  cases x <;> rfl

theorem except_bind_assoc {α β γ ε : Type} (x : Except ε α)
    (f : α → Except ε β) (g : β → Except ε γ) :
    (x.bind f).bind g = x.bind (fun a => (f a).bind g) := by
  cases x <;> rfl

/-- Modelled from the spec: a rule is a named, pure function from a plan
tree to a new tree or an error (the context and scope arguments play no
role in the modelled rules and are omitted). -/
abbrev Rule := Node → Except AError Node

/-- Modelled from the spec: a batch is an ordered sequence of rules plus a
maximum-iteration count. -/
structure Batch where
  rules : List Rule
  maxIterations : Nat

/-- Modelled from the spec: the fixed per-batch iteration ceiling of the
default analyzer (1000 passes). -/
def maxAnalysisIterations : Nat := 1000

/-- Modelled from the spec: one full pass of a batch applies every rule in
declared order, each to the previous rule's output; a rule error aborts the
pass. -/
def applyRules : List Rule → Node → Except AError Node
  | [], n => .ok n
  | r :: rs, n => (r n).bind (applyRules rs)

/-- Result of exactly k full passes of the rule list over a tree. -/
def iterPass : Nat → List Rule → Node → Except AError Node
  | 0, _, n => .ok n
  | k + 1, rs, n => (applyRules rs n).bind (iterPass k rs)

/-- Modelled from the spec: the batch loop repeats full passes up to the
iteration ceiling, stopping early when a full pass leaves the tree
unchanged (structural equality); it returns the final tree together with
the number of passes performed, and never fails merely because the ceiling
was reached. -/
def evalBatchAux : Nat → List Rule → Node → Except AError (Node × Nat)
  | 0, _, n => .ok (n, 0)
  | fuel + 1, rs, n =>
    (applyRules rs n).bind (fun n2 =>
      if n2 = n then .ok (n2, 1)
      else (evalBatchAux fuel rs n2).map (fun p => (p.1, p.2 + 1)))

/-- Batch evaluation with its pass count. -/
def evalBatchCount (b : Batch) (n : Node) : Except AError (Node × Nat) :=
  evalBatchAux b.maxIterations b.rules n

/-- Batch evaluation as seen by the engine: the resulting tree. -/
def evalBatch (b : Batch) (n : Node) : Except AError Node :=
  (evalBatchCount b n).map (fun p => p.1)

/-- Modelled from the spec: Analyze runs the batches in declared order,
feeding each batch the previous batch's tree; an error aborts immediately.
The total number of passes performed is accumulated. -/
def analyzeBatchesCount : List Batch → Node → Except AError (Node × Nat)
  | [], n => .ok (n, 0)
  | b :: bs, n =>
    (evalBatchCount b n).bind (fun p =>
      (analyzeBatchesCount bs p.1).map (fun q => (q.1, p.2 + q.2)))

/-- Analyze over a batch list: the resulting tree. -/
def analyzeBatches (bs : List Batch) (n : Node) : Except AError Node :=
  (analyzeBatchesCount bs n).map (fun p => p.1)

/-- True iff an analysis outcome is a success. -/
def isOkB {α : Type} : Except AError α → Bool
  | .ok _ => true
  | .error _ => false

theorem iterPass_succ_right (k : Nat) (rs : List Rule) (n : Node) :
    iterPass (k + 1) rs n = (iterPass k rs n).bind (applyRules rs) := by
  induction k generalizing n with
  | zero => simp [iterPass, except_bind_ok, except_bind_pure]
  | succ k ih =>
    show (applyRules rs n).bind (iterPass (k + 1) rs) = _
    rw [iterPass]
    rw [except_bind_assoc]
    exact congrArg _ (funext fun m => ih m)

theorem evalBatchAux_no_fixpoint (rs : List Rule) :
    ∀ fuel n,
      (∀ k, k < fuel →
        ∃ m m2, iterPass k rs n = .ok m ∧ applyRules rs m = .ok m2 ∧ m2 ≠ m) →
      evalBatchAux fuel rs n = (iterPass fuel rs n).map (fun m => (m, fuel)) := by
  intro fuel
  induction fuel with
  | zero => intro n h; simp [evalBatchAux, iterPass, except_map_ok]
  | succ fuel ih =>
    intro n h
    obtain ⟨m, m2, hm, happ, hne⟩ := h 0 (Nat.succ_pos fuel)
    have hmn : m = n := by simpa [iterPass] using hm.symm
    subst hmn
    have hshift : ∀ k, k < fuel →
        ∃ m3 m4, iterPass k rs m2 = .ok m3 ∧ applyRules rs m3 = .ok m4 ∧ m4 ≠ m3 := by
      intro k hk
      obtain ⟨m3, m4, h3, h4, h5⟩ := h (k + 1) (Nat.succ_lt_succ hk)
      refine ⟨m3, m4, ?_, h4, h5⟩
      rw [iterPass, happ, except_bind_ok] at h3
      exact h3
    have hrec := ih m2 hshift
    rw [evalBatchAux, happ, except_bind_ok, if_neg hne, hrec]
    rw [iterPass, happ, except_bind_ok, except_map_map]

/-- C4: a batch that reaches its iteration ceiling without a fixed point is
not an error: the engine returns the tree produced by the last completed
pass, i.e. the result of applying the full rule list exactly
maxIterations times. -/
theorem ceiling_without_fixpoint_not_error (b : Batch) (n : Node)
    (h : ∀ k, k < b.maxIterations →
      ∃ m m2, iterPass k b.rules n = .ok m ∧ applyRules b.rules m = .ok m2 ∧ m2 ≠ m) :
    isOkB (iterPass b.maxIterations b.rules n) = true
    ∧ ∀ res, iterPass b.maxIterations b.rules n = .ok res →
        evalBatch b n = .ok res ∧ analyzeBatches [b] n = .ok res := by
  have hmain := evalBatchAux_no_fixpoint b.rules b.maxIterations n h
  have hok : isOkB (iterPass b.maxIterations b.rules n) = true := by
    cases hmax : b.maxIterations with
    | zero => simp [iterPass, isOkB]
    | succ k =>
      obtain ⟨m, m2, hm, happ, _⟩ := h k (by rw [hmax]; exact Nat.lt_succ_self k)
      rw [iterPass_succ_right, hm, except_bind_ok, happ]
      rfl
  refine ⟨hok, ?_⟩
  intro res hres
  have hbatch : evalBatch b n = .ok res := by
    rw [evalBatch, evalBatchCount, hmain, hres]
    rfl
  refine ⟨hbatch, ?_⟩
  rw [analyzeBatches, analyzeBatchesCount, evalBatchCount, hmain, hres]
  rfl

/-- Modelled from the TestMaxIterations scenario: a rule that rewrites
every tree it sees on every pass, so that no fixed point is ever reached. -/
def wrapRule : Rule := fun n =>
  match n with
  | .limit k c => .ok (.limit (k + 1) c)
  | m => .ok (.limit 0 m)

theorem applyRules_single (r : Rule) (n : Node) : applyRules [r] n = (r n).bind .ok := rfl

theorem wrapRule_changes (n : Node) :
    ∃ m2, applyRules [wrapRule] n = .ok m2 ∧ m2 ≠ n := by
  cases n <;> simp [applyRules_single, wrapRule, except_bind_ok, except_bind_pure]

theorem iterPass_wrap_ok (k : Nat) : ∀ n, ∃ m, iterPass k [wrapRule] n = .ok m := by
  induction k with
  | zero => intro n; exact ⟨n, rfl⟩
  | succ k ih =>
    intro n
    obtain ⟨m2, happ, _⟩ := wrapRule_changes n
    obtain ⟨m, hm⟩ := ih m2
    exact ⟨m, by rw [iterPass, happ, except_bind_ok, hm]⟩

theorem evalBatchAux_count_le (rs : List Rule) :
    ∀ fuel n r c, evalBatchAux fuel rs n = .ok (r, c) → c ≤ fuel := by
  intro fuel
  induction fuel with
  | zero =>
    intro n r c h
    simp [evalBatchAux] at h
    omega
  | succ fuel ih =>
    intro n r c h
    rw [evalBatchAux] at h
    cases happ : applyRules rs n with
    | error er => rw [happ] at h; cases h
    | ok n2 =>
      rw [happ, except_bind_ok] at h
      by_cases heq : n2 = n
      · rw [if_pos heq] at h
        cases h
        omega
      · rw [if_neg heq] at h
        cases hrec : evalBatchAux fuel rs n2 with
        | error er => rw [hrec] at h; cases h
        | ok p =>
          rw [hrec, except_map_ok] at h
          cases h
          have := ih n2 p.1 p.2 (by rw [hrec])
          omega

theorem analyzeBatchesCount_le :
    ∀ bs (n r : Node) (c : Nat), analyzeBatchesCount bs n = .ok (r, c) →
      c ≤ (bs.map (fun b => b.maxIterations)).sum := by
  intro bs
  induction bs with
  | nil =>
    intro n r c h
    simp [analyzeBatchesCount] at h
    omega
  | cons b bs ih =>
    intro n r c h
    rw [analyzeBatchesCount] at h
    cases hb : evalBatchCount b n with
    | error er => rw [hb] at h; cases h
    | ok p =>
      rw [hb, except_bind_ok] at h
      cases hrest : analyzeBatchesCount bs p.1 with
      | error er => rw [hrest] at h; cases h
      | ok q =>
        rw [hrest, except_map_ok] at h
        cases h
        have h1 : p.2 ≤ b.maxIterations :=
          evalBatchAux_count_le b.rules b.maxIterations n p.1 p.2 (by rw [← hb]; rfl)
        have h2 := ih p.1 q.1 q.2 (by rw [hrest])
        simp [List.map_cons, List.sum_cons]
        omega

/-- C5: Analyze terminates after at most the sum over all batches of their
iteration ceilings many full passes; the default ceiling is 1000 passes,
and a batch holding a rule that rewrites the tree on every pass performs
exactly its ceiling many passes. -/
theorem analyze_pass_bound (bs : List Batch) (n r : Node) (c : Nat)
    (h : analyzeBatchesCount bs n = .ok (r, c)) :
    c ≤ (bs.map (fun b => b.maxIterations)).sum
    ∧ maxAnalysisIterations = 1000
    ∧ ∀ (b : Batch), b.rules = [wrapRule] → b.maxIterations = maxAnalysisIterations →
        ∀ n0 r0 c0, evalBatchCount b n0 = .ok (r0, c0) → c0 = 1000 := by
  refine ⟨analyzeBatchesCount_le bs n r c h, rfl, ?_⟩
  intro b hrules hmax n0 r0 c0 h0
  have hnofix : ∀ k, k < b.maxIterations →
      ∃ m m2, iterPass k b.rules n0 = .ok m ∧ applyRules b.rules m = .ok m2 ∧ m2 ≠ m := by
    intro k _
    rw [hrules]
    obtain ⟨m, hm⟩ := iterPass_wrap_ok k n0
    obtain ⟨m2, happ, hne⟩ := wrapRule_changes m
    exact ⟨m, m2, hm, happ, hne⟩
  have := evalBatchAux_no_fixpoint b.rules b.maxIterations n0 hnofix
  rw [evalBatchCount, this] at h0
  cases hit : iterPass b.maxIterations b.rules n0 with
  | error er => rw [hit] at h0; cases h0
  | ok m =>
    rw [hit, except_map_ok] at h0
    cases h0
    rw [hmax]
    rfl

/-- Witness for C5: a one-batch analysis with an empty rule list converges
after one pass, within its ceiling of three. -/
theorem analyze_pass_bound_witness :
    (1 : Nat) ≤ (([⟨[], 3⟩] : List Batch).map (fun b => b.maxIterations)).sum :=
  (analyze_pass_bound [⟨[], 3⟩] (.resolvedTable demoTable) (.resolvedTable demoTable) 1 rfl).1

/-- Witness for C4: the always-rewriting rule with ceiling 2 makes the
batch return, without error, the tree after exactly two passes. -/
theorem ceiling_without_fixpoint_not_error_witness :
    evalBatch ⟨[wrapRule], 2⟩ (.resolvedTable demoTable)
        = .ok (.limit 1 (.resolvedTable demoTable))
      ∧ analyzeBatches [⟨[wrapRule], 2⟩] (.resolvedTable demoTable)
        = .ok (.limit 1 (.resolvedTable demoTable)) :=
  (ceiling_without_fixpoint_not_error ⟨[wrapRule], 2⟩ (.resolvedTable demoTable)
      (by
        intro k hk
        interval_cases k
        · exact ⟨.resolvedTable demoTable, .limit 0 (.resolvedTable demoTable), rfl, rfl,
            by simp⟩
        · exact ⟨.limit 0 (.resolvedTable demoTable), .limit 1 (.resolvedTable demoTable),
            rfl, rfl, by simp⟩)).2
    (.limit 1 (.resolvedTable demoTable)) rfl

/-- Modelled from the spec: the Catalog collaborator as seen by table
resolution, a database mapping table names to table handles. -/
structure Database where
  name : String
  tables : List (String × Table)

/-- Table lookup in the active database. -/
def lookupTable (db : Database) (nm : String) : Option Table :=
  (db.tables.find? (fun p => p.1 = nm)).map (fun p => p.2)

/-- Modelled from the spec: the resolve_tables rule body is not under src/;
it replaces an UnresolvedTable with the ResolvedTable bound to the
Catalog-provided handle, and fails with TableNotFound when the name does
not exist in the active database. -/
def resolveTablesFn (db : Database) : Node → Except AError Node
  | .unresolvedTable nm =>
    match lookupTable db nm with
    | some t => .ok (.resolvedTable t)
    | none => .error (.tableNotFound nm)
  | n => .ok n

/-- Table-resolution rule: the body applied bottom-up over the tree. -/
def resolveTables (db : Database) : Rule := transformUp (resolveTablesFn db)

/-- Positions of all columns of a schema carrying the given name. -/
def columnMatches (s : Schema) (nm : String) : List (Nat × Column) :=
  (enumerate 0 s).filter (fun p => p.2.name = nm)

/-- Positions of all columns of a schema carrying the given source table
and name. -/
def qualifiedMatches (s : Schema) (tb nm : String) : List (Nat × Column) :=
  (enumerate 0 s).filter (fun p => p.2.source = tb && p.2.name = nm)

/-- Modelled from the spec: column resolution over one expression against
the immediate child's schema (the enclosing scope chain is empty in every
scenario the claims exercise); zero matches fail with ColumnNotFound, more
than one unqualified match fails with AmbiguousColumn. -/
def resolveExpr (s : Schema) : Expression → Except AError Expression
  | .unresolvedColumn nm =>
    match columnMatches s nm with
    | [] => .error (.columnNotFound nm)
    | [p] => .ok (.getField p.1 p.2.type p.2.source p.2.name p.2.nullable)
    | _ :: _ :: _ => .error (.ambiguousColumn nm)
  | .unresolvedQualifiedColumn tb nm =>
    match qualifiedMatches s tb nm with
    | [] => .error (.columnNotFound nm)
    | p :: _ => .ok (.getField p.1 p.2.type p.2.source p.2.name p.2.nullable)
  | .alias nm e => (resolveExpr s e).map (fun e2 => .alias nm e2)
  | .equals a b =>
    (resolveExpr s a).bind (fun a2 => (resolveExpr s b).map (fun b2 => .equals a2 b2))
  | .and a b =>
    (resolveExpr s a).bind (fun a2 => (resolveExpr s b).map (fun b2 => .and a2 b2))
  | e => .ok e

/-- Column resolution over an expression list, aborting on the first
error. -/
def resolveExprs (s : Schema) : List Expression → Except AError (List Expression)
  | [] => .ok []
  | e :: rest =>
    (resolveExpr s e).bind (fun e2 => (resolveExprs s rest).map (fun r2 => e2 :: r2))

/-- Modelled from the spec: the resolve_columns rule body, a no-op on
resolved nodes and on nodes whose children are not yet resolved. -/
def resolveColumnsFn (n : Node) : Except AError Node :=
  if n.resolved then .ok n
  else
    match n with
    | .project es c =>
      if c.resolved then (resolveExprs c.schema es).map (fun es2 => .project es2 c)
      else .ok (.project es c)
    | .groupBy a g c =>
      if c.resolved then
        (resolveExprs c.schema a).bind (fun a2 =>
          (resolveExprs c.schema g).map (fun g2 => .groupBy a2 g2 c))
      else .ok (.groupBy a g c)
    | .filter e c =>
      if c.resolved then (resolveExpr c.schema e).map (fun e2 => .filter e2 c)
      else .ok (.filter e c)
    | .innerJoin l r e =>
      if l.resolved && r.resolved then
        (resolveExpr (l.schema ++ r.schema) e).map (fun e2 => .innerJoin l r e2)
      else .ok (.innerJoin l r e)
    | m => .ok m

/-- Expression evaluation on a row, for the opaque leaves the analyzer
passes through (GetField by position, literals, equality, conjunction). -/
def evalExpr : Expression → List Value → Value
  | .getField i _ _ _ _, r => (r.get? i).getD .null
  | .literal v _, _ => v
  | .alias _ e, r => evalExpr e r
  | .equals a b, r => .bool (decide (evalExpr a r = evalExpr b r))
  | .and a b, r => .bool ((evalExpr a r).isTrue && (evalExpr b r).isTrue)
  | _, _ => .null

/-- True iff the row passes every pushed-down filter of the table. -/
def Table.passes (t : Table) (r : List Value) : Bool :=
  t.filters.all (fun f => (evalExpr f r).isTrue)

/-- Projection of a raw row to the named columns, by first-occurrence
position in the schema. -/
def projectRowByNames (s : Schema) (names : List String) (r : List Value) : List Value :=
  names.filterMap (fun nm => (findColIdx s nm).bind (fun i => r.get? i))

/-- Rows a table handle produces: raw rows filtered by the pushed filters,
then narrowed to the pushed projection. -/
def Table.producedRows (t : Table) : List (List Value) :=
  (t.rows.filter (fun r => t.passes r)).map (fun r =>
    match t.projection with
    | none => r
    | some names => projectRowByNames t.schema names r)

/-- Row semantics of the plan nodes the pushdown claims observe. -/
def Node.rows : Node → List (List Value)
  | .unresolvedTable _ => []
  | .resolvedTable t => t.producedRows
  | .project es c => c.rows.map (fun r => es.map (fun e => evalExpr e r))
  | .groupBy a _ c => c.rows.map (fun r => a.map (fun e => evalExpr e r))
  | .filter e c => c.rows.filter (fun r => (evalExpr e r).isTrue)
  | .limit k c => c.rows.take k
  | .innerJoin l r e =>
    (l.rows.flatMap (fun a => r.rows.map (fun b => a ++ b))).filter
      (fun row => (evalExpr e row).isTrue)
  | .crossJoin l r => l.rows.flatMap (fun a => r.rows.map (fun b => a ++ b))
  | .naturalJoin _ _ => []
  | .tableAlias _ c => c.rows
  | .describe _ => []
  | .decorated _ c => c.rows

/-- Column name carried by a GetField, none for any other expression. -/
def gfName : Expression → Option String
  | .getField _ _ _ nm _ => some nm
  | _ => none

/-- Names of a projection list when it consists solely of GetFields. -/
def gfNames : List Expression → Option (List String)
  | [] => some []
  | e :: rest => (gfName e).bind (fun nm => (gfNames rest).map (fun r2 => nm :: r2))

/-- Human-readable description of a pushed projection, as in the source's
DecoratedNode text. -/
def projDescription (names : List String) : String :=
  "Projected table access on [" ++ String.intercalate " " names ++ "]"

/-- Human-readable description of a pushed filter. -/
def filterDescription : String := "Filtered table access"

/-- Modelled from the spec: the pushdown rewrite on the shapes the claims
exercise. A Project over a Filter over a pushdown-capable fresh table has
its projection column list and its filter pushed into the table, each
wrapped in a DecoratedNode; a Project directly over such a table pushes the
projection only; every other node, and every table without the capability,
is left untouched. -/
def pushdownStep : Node → Node
  | .project es (.filter cond (.resolvedTable t)) =>
    if t.pushdownCapable = true ∧ t.projection = none ∧ t.filters = [] then
      match gfNames es with
      | some names =>
        .decorated filterDescription
          (.decorated (projDescription names)
            (.resolvedTable ((t.withFilters [cond]).withProjection names)))
      | none => .project es (.filter cond (.resolvedTable t))
    else .project es (.filter cond (.resolvedTable t))
  | .project es (.resolvedTable t) =>
    if t.pushdownCapable = true ∧ t.projection = none then
      match gfNames es with
      | some names =>
        .decorated (projDescription names) (.resolvedTable (t.withProjection names))
      | none => .project es (.resolvedTable t)
    else .project es (.resolvedTable t)
  | n => n

/-- Pushdown as a rule body (it never errors). -/
def pushdownFn (n : Node) : Except AError Node := .ok (pushdownStep n)

/-- Modelled from the spec: the default rule list of the main batch, in
order: table resolution, star resolution, column resolution, pushdown. -/
def defaultRules (db : Database) : List Rule :=
  [resolveTables db, resolveStar, transformUp resolveColumnsFn, transformUp pushdownFn]

/-- Modelled from the spec: the default batch list of the analyzer, a
single main batch with the default iteration ceiling. -/
def defaultBatches (db : Database) : List Batch :=
  [⟨defaultRules db, maxAnalysisIterations⟩]

/-- Analyze entry point over the default batches of a database. -/
def analyze (db : Database) (n : Node) : Except AError Node :=
  analyzeBatches (defaultBatches db) n

theorem evalBatchAux_error_first (fuel : Nat) (rs : List Rule) (n : Node) (er : AError)
    (hf : fuel ≠ 0) (h : applyRules rs n = .error er) :
    evalBatchAux fuel rs n = .error er := by
  cases fuel with
  | zero => exact absurd rfl hf
  | succ f => rw [evalBatchAux, h, except_bind_error]

theorem analyzeBatches_single_error (b : Batch) (n : Node) (er : AError)
    (hf : b.maxIterations ≠ 0) (h : applyRules b.rules n = .error er) :
    analyzeBatches [b] n = .error er := by
  have hb := evalBatchAux_error_first b.maxIterations b.rules n er hf h
  simp [analyzeBatches, analyzeBatchesCount, evalBatchCount, hb, except_bind_error,
    except_map_error]

/-- C9: referencing a column absent from the child's schema fails the whole
Analyze call with ColumnNotFound, and an UnresolvedTable whose name does
not exist in the active database fails it with TableNotFound; in both
cases an error is returned instead of a resolved tree. -/
theorem analyze_error_aborts (db : Database) (badName tname cname : String) (t : Table)
    (hbad : lookupTable db badName = none)
    (ht : lookupTable db tname = some t)
    (hproj : t.projection = none)
    (hcol : columnMatches t.schema cname = []) :
    analyze db (.unresolvedTable badName) = .error (.tableNotFound badName)
    ∧ analyze db (.project [.unresolvedColumn cname] (.unresolvedTable tname))
        = .error (.columnNotFound cname) := by
  constructor
  · have hr1 : resolveTables db (.unresolvedTable badName)
        = .error (.tableNotFound badName) := by
      simp [resolveTables, transformUp, resolveTablesFn, hbad]
    have happ : applyRules (defaultRules db) (.unresolvedTable badName)
        = .error (.tableNotFound badName) := by
      simp [defaultRules, applyRules, hr1, except_bind_error]
    exact analyzeBatches_single_error ⟨defaultRules db, maxAnalysisIterations⟩
      (.unresolvedTable badName) _ (by simp [maxAnalysisIterations]) happ
  · have hr1 : resolveTables db (.project [.unresolvedColumn cname] (.unresolvedTable tname))
        = .ok (.project [.unresolvedColumn cname] (.resolvedTable t)) := by
      simp [resolveTables, transformUp, resolveTablesFn, ht, except_bind_ok]
    have hr2 : resolveStar (.project [.unresolvedColumn cname] (.resolvedTable t))
        = .ok (.project [.unresolvedColumn cname] (.resolvedTable t)) := by
      simp [resolveStar, transformUp, resolveStarFn, Node.resolved, Expression.resolved,
        expandStars, except_bind_ok, except_map_ok]
    have hr3 : transformUp resolveColumnsFn
          (.project [.unresolvedColumn cname] (.resolvedTable t))
        = .error (.columnNotFound cname) := by
      simp [transformUp, resolveColumnsFn, Node.resolved, Expression.resolved,
        except_bind_ok, except_bind_error, except_map_error, resolveExprs, resolveExpr,
        Node.schema, Table.outSchema, hproj, hcol]
    have happ : applyRules (defaultRules db)
          (.project [.unresolvedColumn cname] (.unresolvedTable tname))
        = .error (.columnNotFound cname) := by
      simp [defaultRules, applyRules, hr1, hr2, hr3, except_bind_ok, except_bind_error]
    exact analyzeBatches_single_error ⟨defaultRules db, maxAnalysisIterations⟩
      (.project [.unresolvedColumn cname] (.unresolvedTable tname)) _
      (by simp [maxAnalysisIterations]) happ

/-- Demo database holding only mytable, as in the analyzer tests. -/
def demoDb : Database := ⟨"mydb", [("mytable", demoTable)]⟩

/-- Witness for C9: analyzing the nonexistent table and the absent column o
against the demo database produces the two errors. -/
theorem analyze_error_aborts_witness :
    analyze demoDb (.unresolvedTable "nonexistant") = .error (.tableNotFound "nonexistant")
    ∧ analyze demoDb (.project [.unresolvedColumn "o"] (.unresolvedTable "mytable"))
        = .error (.columnNotFound "o") :=
  analyze_error_aborts demoDb "nonexistant" "mytable" "o" demoTable rfl rfl rfl rfl

theorem pushdown_lists (t : Table) :
    ∀ es : List Expression,
      (∀ e ∈ es, ∃ i c, t.schema.get? i = some c ∧ findColIdx t.schema c.name = some i
          ∧ e = .getField i c.type c.source c.name c.nullable) →
      ∃ names, gfNames es = some names
        ∧ names.filterMap (fun nm => (findColIdx t.schema nm).bind (fun i => t.schema.get? i))
            = es.map exprToColumn
        ∧ ∀ r : List Value, r.length = t.schema.length →
            projectRowByNames t.schema names r = es.map (fun e => evalExpr e r) := by
  intro es
  induction es with
  | nil =>
    intro _
    exact ⟨[], rfl, rfl, fun r _ => rfl⟩
  | cons e rest ih =>
    intro h
    obtain ⟨i, c, hget, hfind, he⟩ := h e (List.mem_cons_self e rest)
    obtain ⟨names, hn, hsch, hrow⟩ := ih (fun x hx => h x (List.mem_cons_of_mem e hx))
    subst he
    have hlt : i < t.schema.length := by
      by_contra hge
      push_neg at hge
      rw [List.get?_eq_none.mpr hge] at hget
      cases hget
    refine ⟨c.name :: names, ?_, ?_, ?_⟩
    · simp [gfNames, gfName, hn]
    · simp only [List.filterMap_cons, List.map_cons]
      rw [hfind]
      have hb : ((some i).bind fun j => t.schema.get? j) = some c := hget
      rw [hb, hsch]
      rfl
    · intro r hr
      have hri : ∃ v, r.get? i = some v := by
        cases hrv : r.get? i with
        | none =>
          have := List.get?_eq_none.mp hrv
          omega
        | some v => exact ⟨v, rfl⟩
      obtain ⟨v, hv⟩ := hri
      simp only [projectRowByNames, List.filterMap_cons, List.map_cons]
      rw [hfind]
      have hb : ((some i).bind fun j => r.get? j) = some v := hv
      rw [hb]
      have h1 : projectRowByNames t.schema names r = rest.map (fun e => evalExpr e r) :=
        hrow r hr
      simp only [projectRowByNames] at h1
      rw [h1]
      have hv2 : r[i]? = some v := by rw [← List.get?_eq_getElem?]; exact hv
      simp [evalExpr, hv2]

/-- C3: pushing the projection column list and the filter predicate of
Project(Filter(Table)) into a pushdown-capable table, wrapped in
DecoratedNodes, preserves the output schema and the row set exactly. -/
theorem pushdown_preserves_semantics (t : Table) (cond : Expression) (es : List Expression)
    (hcap : t.pushdownCapable = true) (hproj : t.projection = none) (hfil : t.filters = [])
    (hrows : ∀ r ∈ t.rows, r.length = t.schema.length)
    (hes : ∀ e ∈ es, ∃ i c, t.schema.get? i = some c ∧ findColIdx t.schema c.name = some i
        ∧ e = .getField i c.type c.source c.name c.nullable) :
    (∃ names, gfNames es = some names
        ∧ pushdownStep (.project es (.filter cond (.resolvedTable t)))
          = .decorated filterDescription
              (.decorated (projDescription names)
                (.resolvedTable ((t.withFilters [cond]).withProjection names))))
    ∧ (pushdownStep (.project es (.filter cond (.resolvedTable t)))).schema
        = (Node.project es (.filter cond (.resolvedTable t))).schema
    ∧ (pushdownStep (.project es (.filter cond (.resolvedTable t)))).rows
        = (Node.project es (.filter cond (.resolvedTable t))).rows := by
  obtain ⟨names, hn, hsch, hrow⟩ := pushdown_lists t es hes
  have hpush : pushdownStep (.project es (.filter cond (.resolvedTable t)))
      = .decorated filterDescription
          (.decorated (projDescription names)
            (.resolvedTable ((t.withFilters [cond]).withProjection names))) := by
    simp only [pushdownStep]
    rw [if_pos ⟨hcap, hproj, hfil⟩, hn]
  refine ⟨⟨names, hn, hpush⟩, ?_, ?_⟩
  · rw [hpush]
    show ((t.withFilters [cond]).withProjection names).outSchema = es.map exprToColumn
    simp only [Table.outSchema, Table.withFilters, Table.withProjection]
    exact hsch
  · rw [hpush]
    have hlhs : (Node.decorated filterDescription
          (.decorated (projDescription names)
            (.resolvedTable ((t.withFilters [cond]).withProjection names)))).rows
        = (t.rows.filter (fun r => (evalExpr cond r).isTrue)).map
            (projectRowByNames t.schema names) := by
      simp [Node.rows, Table.producedRows, Table.passes, Table.withFilters,
        Table.withProjection]
    have hprod : t.producedRows = t.rows := by
      simp [Table.producedRows, Table.passes, hfil, hproj]
    have hrhs : (Node.project es (.filter cond (.resolvedTable t))).rows
        = (t.rows.filter (fun r => (evalExpr cond r).isTrue)).map
            (fun r => es.map (fun e => evalExpr e r)) := by
      simp [Node.rows, hprod]
    rw [hlhs, hrhs]
    apply List.map_congr_left
    intro r hr
    exact hrow r (hrows r (List.mem_of_mem_filter hr))

/-- Witness for C3 on the demo table: the pushed-down plan produces the
same rows as the original Project(Filter(Table)). -/
theorem pushdown_preserves_semantics_witness :
    (pushdownStep (.project [.getField 0 .int32 "mytable" "i" false]
        (.filter (.equals (.getField 0 .int32 "mytable" "i" false) (.literal (.int 1) .int32))
          (.resolvedTable demoTable)))).rows
      = (Node.project [.getField 0 .int32 "mytable" "i" false]
          (.filter (.equals (.getField 0 .int32 "mytable" "i" false) (.literal (.int 1) .int32))
            (.resolvedTable demoTable))).rows :=
  (pushdown_preserves_semantics demoTable
      (.equals (.getField 0 .int32 "mytable" "i" false) (.literal (.int 1) .int32))
      [.getField 0 .int32 "mytable" "i" false] rfl rfl rfl (by decide)
      (by
        intro e he
        simp only [List.mem_singleton] at he
        subst he
        exact ⟨0, ⟨"i", "mytable", .int32, false⟩, rfl, rfl, rfl⟩)).2.2

/-- Data of one GetField occurrence: its index and recorded
type/table/name/nullability. -/
structure GFInfo where
  index : Nat
  type : SqlType
  table : String
  name : String
  nullable : Bool
deriving DecidableEq, Repr

/-- All GetField occurrences of an expression tree. -/
def exprGetFields : Expression → List GFInfo
  | .getField i ty tb nm nu => [⟨i, ty, tb, nm, nu⟩]
  | .alias _ e => exprGetFields e
  | .equals a b => exprGetFields a ++ exprGetFields b
  | .and a b => exprGetFields a ++ exprGetFields b
  | _ => []

/-- Modelled from the spec: the pairs of (left position, left column,
right position, right column) for every left column sharing its name with
a right column, the common-column set of a natural join. -/
def commonPairs (sl sr : Schema) : List ((Nat × Column) × (Nat × Column)) :=
  (enumerate 0 sl).filterMap (fun p =>
    ((enumerate 0 sr).find? (fun q => q.2.name = p.2.name)).map (fun q => (p, q)))

/-- Equality predicate generated for one common-column pair, with indices
relative to the concatenated schema of the rewritten join. -/
def eqForPair (leftLen : Nat) (pq : (Nat × Column) × (Nat × Column)) : Expression :=
  .equals (.getField pq.1.1 pq.1.2.type pq.1.2.source pq.1.2.name pq.1.2.nullable)
    (.getField (leftLen + pq.2.1) pq.2.2.type pq.2.2.source pq.2.2.name pq.2.2.nullable)

/-- Conjunction of a nonempty list of predicates. -/
def joinAnd : Expression → List Expression → Expression
  | e, [] => e
  | e, f :: fs => .and e (joinAnd f fs)

/-- GetFields over every column of the left schema, in order. -/
def leftProjections (sl : Schema) : List Expression :=
  (enumerate 0 sl).map (fun p => Expression.getField p.1 p.2.type p.2.source p.2.name p.2.nullable)

/-- GetFields over the right-side columns whose names do not duplicate a
left-side column, at their positions in the concatenated schema. -/
def rightProjections (off : Nat) (names : List String) (sr : Schema) : List Expression :=
  (enumerate 0 sr).filterMap (fun q =>
    if names.contains q.2.name then none
    else some (Expression.getField (off + q.1) q.2.type q.2.source q.2.name q.2.nullable))

/-- Modelled from the spec: natural-join expansion rewrites a natural join
of two resolved sides into an inner join under a Project; the join
condition is the conjunction of equalities over all columns common by
name, the projection keeps every left column and drops the duplicate
right-side columns, and all GetField indices are relative to the
concatenated schema of the rewritten join tree. With no common column the
natural join degenerates to a cross join. -/
def expandNaturalJoin (l r : Node) : Option Node :=
  if l.resolved && r.resolved then
    match commonPairs l.schema r.schema with
    | [] => some (.crossJoin l r)
    | p :: ps =>
      some (.project
        (leftProjections l.schema
          ++ rightProjections l.schema.length (l.schema.map (fun c2 => c2.name)) r.schema)
        (.innerJoin l r
          (joinAnd (eqForPair l.schema.length p) (ps.map (eqForPair l.schema.length)))))
  else none

theorem mem_enumerate {α : Type} (l : List α) :
    ∀ k p, p ∈ enumerate k l → k ≤ p.1 ∧ l.get? (p.1 - k) = some p.2 := by
  induction l with
  | nil => intro k p h; simp [enumerate] at h
  | cons a as ih =>
    intro k p h
    rw [enumerate] at h
    rcases List.mem_cons.mp h with h | h
    · subst h; simp
    · obtain ⟨h1, h2⟩ := ih (k + 1) p h
      refine ⟨by omega, ?_⟩
      have hx : p.1 - k = (p.1 - (k + 1)) + 1 := by omega
      rw [hx]
      simpa using h2

theorem mem_enumerate_zero {α : Type} {l : List α} {p : Nat × α} (h : p ∈ enumerate 0 l) :
    l.get? p.1 = some p.2 := by
  have := (mem_enumerate l 0 p h).2
  simpa using this

theorem append_get?_left (sl sr : Schema) (i : Nat) (c : Column) (h : sl.get? i = some c) :
    (sl ++ sr).get? i = some c := by
  have hlt : i < sl.length := by
    by_contra hge
    push_neg at hge
    rw [List.get?_eq_none.mpr hge] at h
    cases h
  rw [List.get?_append hlt]
  exact h

theorem append_get?_right (sl sr : Schema) (j : Nat) (c : Column) (h : sr.get? j = some c) :
    (sl ++ sr).get? (sl.length + j) = some c := by
  rw [List.get?_append_right (Nat.le_add_right _ _)]
  have hx : sl.length + j - sl.length = j := by omega
  rw [hx]
  exact h

theorem commonPairs_mem (sl sr : Schema) (pq : (Nat × Column) × (Nat × Column))
    (h : pq ∈ commonPairs sl sr) :
    pq.1 ∈ enumerate 0 sl ∧ pq.2 ∈ enumerate 0 sr := by
  simp only [commonPairs, List.mem_filterMap] at h
  obtain ⟨p, hp, heq⟩ := h
  cases hfind : (enumerate 0 sr).find? (fun q => q.2.name = p.2.name) with
  | none => rw [hfind] at heq; cases heq
  | some q =>
    rw [hfind] at heq
    injection heq with heq
    subst heq
    exact ⟨hp, List.mem_of_find?_eq_some hfind⟩

theorem exprGetFields_joinAnd (fs : List Expression) :
    ∀ e, exprGetFields (joinAnd e fs) = exprGetFields e ++ fs.flatMap exprGetFields := by
  induction fs with
  | nil => intro e; simp [joinAnd]
  | cons f fs ih => intro e; simp [joinAnd, exprGetFields, ih]

theorem eqForPair_ok (sl sr : Schema) (pq : (Nat × Column) × (Nat × Column))
    (h : pq ∈ commonPairs sl sr) :
    ∀ g ∈ exprGetFields (eqForPair sl.length pq),
      (sl ++ sr).get? g.index = some ⟨g.name, g.table, g.type, g.nullable⟩ := by
  obtain ⟨h1, h2⟩ := commonPairs_mem sl sr pq h
  intro g hg
  simp only [eqForPair, exprGetFields, List.mem_append, List.mem_singleton] at hg
  rcases hg with hg | hg
  · subst hg
    exact append_get?_left _ _ _ _ (mem_enumerate_zero h1)
  · subst hg
    exact append_get?_right _ _ _ _ (mem_enumerate_zero h2)

theorem enum_map_cols (sl : Schema) :
    ∀ k, ((enumerate k sl).map
        (fun p => Expression.getField p.1 p.2.type p.2.source p.2.name p.2.nullable)).map
          exprToColumn
      = sl := by
  induction sl with
  | nil => intro k; simp [enumerate]
  | cons c rest ih =>
    intro k
    simp only [enumerate, List.map_cons]
    rw [ih (k + 1)]
    rfl

theorem enum_filterMap_cols (names : List String) (off : Nat) (sr : Schema) :
    ∀ k, ((enumerate k sr).filterMap (fun q =>
        if names.contains q.2.name then none
        else some (Expression.getField (off + q.1) q.2.type q.2.source q.2.name q.2.nullable))).map
          exprToColumn
      = sr.filter (fun c => !(names.contains c.name)) := by
  induction sr with
  | nil => intro k; simp [enumerate]
  | cons c rest ih =>
    intro k
    simp only [enumerate, List.filterMap_cons, List.filter_cons]
    by_cases hmem : c.name ∈ names
    · have hc : names.contains c.name = true := by simpa using hmem
      rw [if_pos hc, ih (k + 1)]
      simp [hmem]
    · have hc : ¬ names.contains c.name = true := by simpa using hmem
      rw [if_neg hc]
      simp only [List.map_cons]
      rw [ih (k + 1)]
      have hb : (!names.contains c.name) = true := by simpa using hmem
      rw [if_pos hb]
      rfl

/-- C2: natural-join expansion rewrites the natural join into a Project of
an inner join of the original sides; every GetField generated in the
projections or in the equality join condition points, in the concatenated
schema of the rewritten join tree, at the column carrying exactly its
recorded table and name; and the output schema keeps the left columns and
drops the duplicate right-side columns. -/
theorem natural_join_positional (l r : Node) (projs : List Expression) (cond : Expression)
    (l2 r2 : Node)
    (h : expandNaturalJoin l r = some (.project projs (.innerJoin l2 r2 cond))) :
    (l2 = l ∧ r2 = r)
    ∧ (∀ g ∈ projs.flatMap exprGetFields ++ exprGetFields cond,
        (l.schema ++ r.schema).get? g.index = some ⟨g.name, g.table, g.type, g.nullable⟩)
    ∧ (Node.project projs (.innerJoin l2 r2 cond)).schema
        = l.schema ++ r.schema.filter
            (fun c => !((l.schema.map (fun c2 => c2.name)).contains c.name)) := by
  rw [expandNaturalJoin] at h
  by_cases hres : (l.resolved && r.resolved) = true
  case neg => rw [if_neg hres] at h; cases h
  rw [if_pos hres] at h
  cases hcp : commonPairs l.schema r.schema with
  | nil => rw [hcp] at h; simp at h
  | cons p ps =>
    rw [hcp] at h
    simp only [Option.some.injEq, Node.project.injEq, Node.innerJoin.injEq] at h
    obtain ⟨hP, hl2, hr2, hC⟩ := h
    subst hP
    subst hl2
    subst hr2
    subst hC
    refine ⟨⟨rfl, rfl⟩, ?_, ?_⟩
    · intro g hg
      rcases List.mem_append.mp hg with hg | hg
      · rw [List.mem_flatMap] at hg
        obtain ⟨e, he, hge⟩ := hg
        rcases List.mem_append.mp he with he | he
        · rw [leftProjections, List.mem_map] at he
          obtain ⟨p2, hp2, hep⟩ := he
          subst hep
          simp only [exprGetFields, List.mem_singleton] at hge
          subst hge
          exact append_get?_left _ _ _ _ (mem_enumerate_zero hp2)
        · rw [rightProjections, List.mem_filterMap] at he
          obtain ⟨q, hq, hqe⟩ := he
          by_cases hcn : ((l.schema.map (fun c2 => c2.name)).contains q.2.name) = true
          · rw [if_pos hcn] at hqe; cases hqe
          · rw [if_neg hcn] at hqe
            injection hqe with hqe
            subst hqe
            simp only [exprGetFields, List.mem_singleton] at hge
            subst hge
            exact append_get?_right _ _ _ _ (mem_enumerate_zero hq)
      · rw [exprGetFields_joinAnd] at hg
        rcases List.mem_append.mp hg with hg | hg
        · exact eqForPair_ok l.schema r.schema p
            (by rw [hcp]; exact List.mem_cons_self p ps) g hg
        · rw [List.mem_flatMap] at hg
          obtain ⟨e, he, hge⟩ := hg
          rw [List.mem_map] at he
          obtain ⟨pq, hpq, hpe⟩ := he
          subst hpe
          exact eqForPair_ok l.schema r.schema pq
            (by rw [hcp]; exact List.mem_cons_of_mem p hpq) g hge
    · show (leftProjections l.schema
          ++ rightProjections l.schema.length (l.schema.map (fun c2 => c2.name)) r.schema).map
            exprToColumn = _
      rw [List.map_append, leftProjections, rightProjections,
        enum_map_cols l.schema 0,
        enum_filterMap_cols (l.schema.map (fun c2 => c2.name)) l.schema.length r.schema 0]

/-- Demo left side of a natural join: mytable with columns i, f, t. -/
def demoLeft : Table :=
  ⟨"mytable",
    [⟨"i", "mytable", .int32, false⟩, ⟨"f", "mytable", .float64, false⟩,
     ⟨"t", "mytable", .text, false⟩], [], none, [], true⟩

/-- Demo right side of a natural join: mytable3 with columns i, f2, t3
sharing the column name i with the left side. -/
def demoRight : Table :=
  ⟨"mytable3",
    [⟨"i", "mytable3", .int32, false⟩, ⟨"f2", "mytable3", .float64, false⟩,
     ⟨"t3", "mytable3", .text, false⟩], [], none, [], true⟩

/-- Projections the natural-join expansion generates for the demo sides. -/
def demoNJProjections : List Expression :=
  [.getField 0 .int32 "mytable" "i" false,
   .getField 1 .float64 "mytable" "f" false,
   .getField 2 .text "mytable" "t" false,
   .getField 4 .float64 "mytable3" "f2" false,
   .getField 5 .text "mytable3" "t3" false]

/-- Join condition the natural-join expansion generates for the demo
sides: equality of the two i columns. -/
def demoNJCondition : Expression :=
  .equals (.getField 0 .int32 "mytable" "i" false) (.getField 3 .int32 "mytable3" "i" false)

/-- Witness for C2: the rewritten demo natural join exposes the left
columns followed by the non-duplicate right columns. -/
theorem natural_join_positional_witness :
    (Node.project demoNJProjections
        (.innerJoin (.resolvedTable demoLeft) (.resolvedTable demoRight) demoNJCondition)).schema
      = [⟨"i", "mytable", .int32, false⟩, ⟨"f", "mytable", .float64, false⟩,
         ⟨"t", "mytable", .text, false⟩, ⟨"f2", "mytable3", .float64, false⟩,
         ⟨"t3", "mytable3", .text, false⟩] :=
  (natural_join_positional (.resolvedTable demoLeft) (.resolvedTable demoRight)
    demoNJProjections demoNJCondition (.resolvedTable demoLeft) (.resolvedTable demoRight)
    rfl).2.2

end Analyzer
